import Mathlib

/-!
# Verification of the Termite routing core

Shallow embedding of the route-matching, destination-selection, rate-limiting,
threshold-parsing, admission-validation and reranking-cache-key code of the
`termite` repository, together with theorems settling the specification claims.

Conventions:
* Go `float64` values are embedded as `ℚ` (all claims concern exact small values
  and order comparisons, never rounding).
* Go `int32`/`int` are embedded as `Int` (only comparisons and small arithmetic
  occur, no overflow).
* Compiled `*regexp.Regexp` values stored inside routes are embedded as their
  matching semantics `String → Bool`.
* Go maps used as sets become `List`s with membership; maps used for lookup
  become association lists (keys are unique in the source).
-/

namespace Termite

/-! ## String helpers

Go's `strings` functions are embedded as structurally recursive operations on
`String.data`, so that all definitions reduce inside the kernel. -/

/-- `strings.TrimSpace`: drop leading and trailing whitespace. -/
def goTrimSpace (s : String) : String :=
  ⟨((s.data.dropWhile Char.isWhitespace).reverse.dropWhile Char.isWhitespace).reverse⟩

/-- `strings.HasPrefix`. -/
def goHasPrefix (s pre : String) : Bool :=
  pre.data.isPrefixOf s.data

/-- `strings.HasSuffix` (the test of `strings.CutSuffix`). -/
def goHasSuffix (s suf : String) : Bool :=
  suf.data.isSuffixOf s.data

/-- Drop the first `n` characters (`strings.TrimPrefix` after a successful
prefix test; all prefixes involved are ASCII). -/
def strDrop (s : String) (n : Nat) : String :=
  ⟨s.data.drop n⟩

/-- Drop the last `n` characters (the `before` part of `strings.CutSuffix`). -/
def strDropRight (s : String) (n : Nat) : String :=
  ⟨s.data.take (s.data.length - n)⟩

/-! ## Threshold conditions (`part_009`: `ThresholdCondition`, `ParseThresholdCondition`,
`parseFloat`, `parseFloatInternal`) -/

/-- `ThresholdCondition` from the source: an operator string and a float value. -/
structure ThresholdCondition where
  operator : String
  value : ℚ
  deriving Repr, DecidableEq

/-- `ThresholdCondition.Evaluate`: the Go `switch` on the operator. -/
def ThresholdCondition.evaluate (c : ThresholdCondition) (v : ℚ) : Bool :=
  if c.operator = ">" then decide (v > c.value)
  else if c.operator = "<" then decide (v < c.value)
  else if c.operator = ">=" then decide (v ≥ c.value)
  else if c.operator = "<=" then decide (v ≤ c.value)
  else if c.operator = "==" then decide (v = c.value)
  else false

/-- Accumulator of the loop in `parseFloatInternal`. -/
structure PFAcc where
  result : ℚ
  decimal : ℚ
  inDecimal : Bool
  negative : Bool
  n : Nat
  deriving Repr

/-- The `for i, c := range s` loop body of `parseFloatInternal`.
`c == '-' && i == 0` records a sign, `'.'` switches to the fractional part,
digits accumulate, every other character is skipped. -/
def parseFloatLoop : List Char → Nat → PFAcc → PFAcc
  | [], _, acc => acc
  | c :: cs, i, acc =>
    let acc' :=
      if c = '-' ∧ i = 0 then { acc with negative := true }
      else if c = '.' then { acc with inDecimal := true }
      else if '0' ≤ c ∧ c ≤ '9' then
        let digit : ℚ := ((c.toNat - '0'.toNat : Nat) : ℚ)
        if acc.inDecimal then
          { acc with decimal := acc.decimal * 10,
                     result := acc.result + digit / (acc.decimal * 10),
                     n := acc.n + 1 }
        else
          { acc with result := acc.result * 10 + digit, n := acc.n + 1 }
      else acc
    parseFloatLoop cs (i + 1) acc'

/-- `parseFloat`/`parseFloatInternal`: returns the parsed value, the digit
count `n`, and the error, which is always `none` (`return true, nil`). -/
def parseFloat (s : String) : ℚ × Nat × Option String :=
  let acc := parseFloatLoop s.data 0 ⟨0, 1, false, false, 0⟩
  ((if acc.negative then -acc.result else acc.result), acc.n, none)

/-- `ParseThresholdCondition`: operator prefix dispatch, then the value with
`ms`/`s` suffix handling. -/
def parseThresholdCondition (s : String) : Except String ThresholdCondition :=
  let s := goTrimSpace s
  let p : String × String :=
    if goHasPrefix s ">=" then (">=", strDrop s 2)
    else if goHasPrefix s "<=" then ("<=", strDrop s 2)
    else if goHasPrefix s ">" then (">", strDrop s 1)
    else if goHasPrefix s "<" then ("<", strDrop s 1)
    else if goHasPrefix s "==" then ("==", strDrop s 2)
    else ("==", s)
  let operator := p.1
  let valueStr := goTrimSpace p.2
  if goHasSuffix valueStr "ms" then
    let r := parseFloat (strDropRight valueStr 2)
    match r.2.2 with
    | some e => .error e
    | none => .ok ⟨operator, r.1 / 1000⟩
  else if goHasSuffix valueStr "s" then
    let r := parseFloat (strDropRight valueStr 1)
    match r.2.2 with
    | some e => .error e
    | none => .ok ⟨operator, r.1⟩
  else
    let r := parseFloat valueStr
    match r.2.2 with
    | some e => .error e
    | none => .ok ⟨operator, r.1⟩

/-! ## Time windows (`part_009`: `TimeWindow.IsActive`) -/

/-- The fields of a Go `time.Time` that `IsActive` reads, already converted to
UTC (the source calls `t.UTC()` first): weekday (0 = Sunday), hour, minute. -/
structure GoTime where
  weekday : Nat
  hour : Nat
  minute : Nat
  deriving Repr, DecidableEq

/-- `TimeWindow` from the source; `days` embeds the `map[int]bool` set. -/
structure TimeWindow where
  startHour : Int
  startMinute : Int
  endHour : Int
  endMinute : Int
  days : List Nat
  deriving Repr, DecidableEq

/-- `TimeWindow.IsActive`: optional weekday check, then the minute-of-day
comparison with the overnight (wrap-around) case when end precedes start. -/
def TimeWindow.isActive (tw : TimeWindow) (t : GoTime) : Bool :=
  if tw.days ≠ [] ∧ ¬ tw.days.contains t.weekday then false
  else
    let currentMinutes : Int := t.hour * 60 + t.minute
    let startMinutes : Int := tw.startHour * 60 + tw.startMinute
    let endMinutes : Int := tw.endHour * 60 + tw.endMinute
    if startMinutes ≤ endMinutes then
      decide (currentMinutes ≥ startMinutes) && decide (currentMinutes < endMinutes)
    else
      decide (currentMinutes ≥ startMinutes) || decide (currentMinutes < endMinutes)

/-! ## Model patterns (`part_009`: `CompileModelPattern`)

`CompileModelPattern` escapes every regex metacharacter of the pattern with
`regexp.QuoteMeta`, rewrites each (escaped) `*` to `.*`, anchors the result
with `^`/`$` and compiles it with Go's `regexp` (RE2).  The compiled regex is
therefore an anchored sequence of literal characters and `.*` blocks; its
matching semantics is embedded below as `rxMatch` over token lists.  RE2's
`.` with the default flags (no `s`) matches any character except newline, so
neither a `.` nor a `.*` block ever crosses a `'\n'`. -/

/-- A token of the anchored regexes involved here: a literal character, the
metacharacter `.` (any single character except newline), or a `.*` block. -/
inductive RTok where
  | lit (c : Char)
  | anyChar
  | star
  deriving Repr, DecidableEq

/-- Helper for `.*` tokens: try the continuation on every suffix of the
string reachable by absorbing zero or more leading non-newline characters
(each absorbed character is an RE2 `.`, which never matches `'\n'`). -/
def starSearch (f : List Char → Bool) : List Char → Bool
  | [] => f []
  | x :: xs => f (x :: xs) || (decide (x ≠ '\n') && starSearch f xs)

/-- Anchored matching semantics of a token sequence. -/
def rxMatch : List RTok → List Char → Bool
  | [], s => s.isEmpty
  | .lit c :: ps, s =>
    match s with
    | [] => false
    | x :: xs => decide (c = x) && rxMatch ps xs
  | .anyChar :: ps, s =>
    match s with
    | [] => false
    | x :: xs => decide (x ≠ '\n') && rxMatch ps xs
  | .star :: ps, s => starSearch (rxMatch ps) s

/-- Tokens of one pattern character after `QuoteMeta`: everything except `*`
is a literal, `*` becomes `.*`. -/
def quotedTok (c : Char) : RTok :=
  if c = '*' then RTok.star else RTok.lit c

/-- The token sequence of the anchored regex built by `CompileModelPattern`. -/
def compiledModelPattern (pattern : String) : List RTok :=
  pattern.data.map quotedTok

/-- `CompileModelPattern(pattern).MatchString(s)`. -/
def modelPatternMatch (pattern s : String) : Bool :=
  rxMatch (compiledModelPattern pattern) s.data

/-- The regex named by the claim's words: the anchored regular expression
obtained from `p` by replacing each `*` with `.*` and nothing else, so the
remaining characters keep their regular-expression meaning; in particular a
`.` in `p` stays the any-character metacharacter. -/
def claimRegexTokens (pattern : String) : List RTok :=
  pattern.data.map
    (fun c => if c = '*' then RTok.star else if c = '.' then RTok.anyChar else RTok.lit c)

/-- Declarative glob semantics: `Glob p s` holds when `s` arises from `p` by
replacing each `*` with some (possibly empty) sequence of non-newline
characters (the compiled `.*` never matches `'\n'`), every other character
standing for itself. -/
inductive Glob : List Char → List Char → Prop where
  | nil : Glob [] []
  | lit {c : Char} {ps s : List Char} : c ≠ '*' → Glob ps s → Glob (c :: ps) (c :: s)
  | star_skip {ps s : List Char} : Glob ps s → Glob ('*' :: ps) s
  | star_take {ps s : List Char} {x : Char} :
      x ≠ '\n' → Glob ('*' :: ps) s → Glob ('*' :: ps) (x :: s)

theorem starSearch_of_apply {f : List Char → Bool} {s : List Char} (h : f s = true) :
    starSearch f s = true := by
  cases s with
  | nil => simpa [starSearch] using h
  | cons x xs => simp [starSearch, h]

theorem starSearch_exists {f : List Char → Bool} {s : List Char}
    (h : starSearch f s = true) :
    ∃ u v, s = u ++ v ∧ (∀ c ∈ u, c ≠ '\n') ∧ f v = true := by
  induction s with
  | nil => exact ⟨[], [], rfl, by simp, by simpa [starSearch] using h⟩
  | cons x xs ih =>
    rw [starSearch] at h
    rcases Bool.or_eq_true_iff.mp h with h1 | h2
    · exact ⟨[], x :: xs, rfl, by simp, h1⟩
    · obtain ⟨hx, h2'⟩ := Bool.and_eq_true_iff.mp h2
      obtain ⟨u, v, huv, hu, hv⟩ := ih h2'
      refine ⟨x :: u, v, by simp [huv], ?_, hv⟩
      intro c hc
      rcases List.mem_cons.mp hc with rfl | hc
      · exact of_decide_eq_true hx
      · exact hu c hc

theorem glob_star_prepend {ps s : List Char} :
    ∀ u : List Char, (∀ c ∈ u, c ≠ '\n') → Glob ('*' :: ps) s →
      Glob ('*' :: ps) (u ++ s) := by
  intro u
  induction u with
  | nil => intro _ h; simpa using h
  | cons x xs ih =>
    intro hu h
    exact Glob.star_take (hu x (List.mem_cons_self _ _))
      (ih (fun c hc => hu c (List.mem_cons_of_mem _ hc)) h)

theorem glob_rxMatch {p s : List Char} (h : Glob p s) :
    rxMatch (p.map quotedTok) s = true := by
  induction h with
  | nil => rfl
  | @lit c ps s hc hg ihg =>
    simp [quotedTok, if_neg hc, rxMatch, ihg]
  | @star_skip ps s hg ihg =>
    simp only [List.map_cons, quotedTok, if_pos rfl, rxMatch]
    exact starSearch_of_apply ihg
  | @star_take ps s x hx hg ihg =>
    simp only [List.map_cons, quotedTok, if_pos rfl, rxMatch, starSearch] at ihg ⊢
    exact Bool.or_eq_true_iff.mpr
      (Or.inr (Bool.and_eq_true_iff.mpr ⟨decide_eq_true hx, ihg⟩))

theorem rxMatch_glob : ∀ (p s : List Char), rxMatch (p.map quotedTok) s = true → Glob p s := by
  intro p
  induction p with
  | nil =>
    intro s h
    cases s with
    | nil => exact Glob.nil
    | cons x xs => simp [rxMatch, List.isEmpty] at h
  | cons c ps ih =>
    intro s h
    by_cases hc : c = '*'
    · subst hc
      simp only [List.map_cons, quotedTok, if_pos rfl, rxMatch] at h
      obtain ⟨u, v, huv, hu, hv⟩ := starSearch_exists h
      subst huv
      exact glob_star_prepend u hu (Glob.star_skip (ih v hv))
    · simp only [List.map_cons, quotedTok, if_neg hc, rxMatch] at h
      cases s with
      | nil => cases h
      | cons x xs =>
        rcases Bool.and_eq_true_iff.mp h with ⟨hcx, hrest⟩
        have : c = x := of_decide_eq_true hcx
        subst this
        exact Glob.lit hc (ih xs hrest)

/-- C7 (counterexample): for the pattern `"v1.5"` and the string `"v1x5"`, the
regex described by the claim — `p` with each `*` replaced by `.*`, anchored —
accepts (its `.` matches the `x`), while the compiled matcher, which escapes
the dot, rejects;  so the claimed equivalence fails at this input. -/
theorem modelPattern_claim_counterexample :
    rxMatch (claimRegexTokens "v1.5") "v1x5".data = true ∧
    modelPatternMatch "v1.5" "v1x5" = false := by
  constructor <;> decide

/-- C7 (amended): the matcher compiled by `CompileModelPattern` accepts `s`
iff `s` matches `p` glob-style: each `*` stands for an arbitrary (possibly
empty) sequence of non-newline characters (the compiled `.*` uses RE2's `.`,
which with the default flags does not match `'\n'`), and every other
character — including regex metacharacters such as `.`, which the code
escapes — stands for itself, anchored at both ends. -/
theorem modelPattern_matches_glob (p s : String) :
    modelPatternMatch p s = true ↔ Glob p.data s.data := by
  constructor
  · exact fun h => rxMatch_glob p.data s.data h
  · exact fun h => glob_rxMatch h

/-! ## Association-list helpers (Go maps used for lookup) -/

/-- Go map read `m[k]` (with ok-flag): first match in the association list. -/
def lookupAssoc {α : Type} (l : List (String × α)) (k : String) : Option α :=
  match l.find? (fun q => q.1 == k) with
  | some q => some q.2
  | none => none

/-- Go map write `m[k] = v`. -/
def setAssoc {α : Type} (l : List (String × α)) (k : String) (v : α) : List (String × α) :=
  match l with
  | [] => [(k, v)]
  | q :: rest => if q.1 == k then (k, v) :: rest else q :: setAssoc rest k v

/-! ## Rate limiter (`part_009`: `RateLimiter`, `NewRateLimiter`, `Allow`)

Wall-clock instants (`time.Time`, always read through `time.Now()` and
`Sub(...).Seconds()`) are embedded as rationals measured in seconds. -/

/-- `modelLimit`: per-model bucket state. -/
structure ModelLimit where
  tokens : ℚ
  lastUpdate : ℚ
  deriving Repr, DecidableEq

/-- `RateLimiter` state. -/
structure RateLimiter where
  rate : ℚ
  burstSize : Int
  tokens : ℚ
  lastUpdate : ℚ
  perModel : Bool
  modelLimits : List (String × ModelLimit)
  deriving Repr, DecidableEq

/-- `NewRateLimiter(rps, burst, perModel)` at creation instant `now`
(`lastUpdate: time.Now()`): the bucket starts full. -/
def newRateLimiter (rps burst : Int) (perModel : Bool) (now : ℚ) : RateLimiter :=
  { rate := (rps : ℚ), burstSize := burst, tokens := (burst : ℚ), lastUpdate := now,
    perModel := perModel, modelLimits := [] }

/-- `RateLimiter.Allow(model)` at instant `now`: pick the global or the
per-model bucket (creating a full one on first sight of the model), refill by
the elapsed time, cap at the burst size, then consume one token if at least
one is available. -/
def RateLimiter.allow (rl : RateLimiter) (model : String) (now : ℚ) : RateLimiter × Bool :=
  if rl.perModel then
    let ml : ModelLimit :=
      match lookupAssoc rl.modelLimits model with
      | some ml => ml
      | none => ⟨(rl.burstSize : ℚ), now⟩
    let t := ml.tokens + (now - ml.lastUpdate) * rl.rate
    let t := if t > (rl.burstSize : ℚ) then (rl.burstSize : ℚ) else t
    if t ≥ 1 then
      ({ rl with modelLimits := setAssoc rl.modelLimits model ⟨t - 1, now⟩ }, true)
    else
      ({ rl with modelLimits := setAssoc rl.modelLimits model ⟨t, now⟩ }, false)
  else
    let t := rl.tokens + (now - rl.lastUpdate) * rl.rate
    let t := if t > (rl.burstSize : ℚ) then (rl.burstSize : ℚ) else t
    if t ≥ 1 then
      ({ rl with tokens := t - 1, lastUpdate := now }, true)
    else
      ({ rl with tokens := t, lastUpdate := now }, false)

/-- Run a sequence of `Allow` calls, given as (model, instant) pairs; record
for each call its instant and whether it was admitted. -/
def allowTrace : RateLimiter → List (String × ℚ) → List (ℚ × Bool)
  | _, [] => []
  | rl, (m, t) :: rest =>
    let r := rl.allow m t
    (t, r.2) :: allowTrace r.1 rest

/-- `time.Now()` is monotone: the call instants are non-decreasing and start
no earlier than `l`. -/
def ChainLe : ℚ → List ℚ → Prop
  | _, [] => True
  | l, t :: ts => l ≤ t ∧ ChainLe t ts

/-- Number of admitted calls whose instant lies in the window `[a, b]`. -/
def admittedInWindow (tr : List (ℚ × Bool)) (a b : ℚ) : Nat :=
  (tr.filter (fun q => q.2 && decide (a ≤ q.1) && decide (q.1 ≤ b))).length

/-- Number of admitted calls whose instant is at most `b`. -/
def admittedUpTo (tr : List (ℚ × Bool)) (b : ℚ) : Nat :=
  (tr.filter (fun q => q.2 && decide (q.1 ≤ b))).length

/-- The refill step of `Allow`: add `elapsed * rate` tokens, cap at the burst
size. -/
def refill (rate cap tok last now : ℚ) : ℚ :=
  if tok + (now - last) * rate > cap then cap else tok + (now - last) * rate

/-- The single-bucket core of `Allow`, iterated over the call instants:
state is (tokens, lastUpdate). -/
def bucketTrace (rate cap : ℚ) : ℚ → ℚ → List ℚ → List (ℚ × Bool)
  | _, _, [] => []
  | tok, last, t :: ts =>
    if refill rate cap tok last t ≥ 1 then
      (t, true) :: bucketTrace rate cap (refill rate cap tok last t - 1) t ts
    else (t, false) :: bucketTrace rate cap (refill rate cap tok last t) t ts

/-! ## Endpoints and destination selection (`part_009`: `Destination`,
`RouteManager.SelectDestination`, `RouteManager.evaluateConditions`) -/

/-- Modelled from the spec: the `Endpoint` snapshot fields read by
`evaluateConditions` (§3 Endpoint: the queue-depth counter and the set of
loaded model names); the `Endpoint` type itself is not among the provided
sources. -/
structure Endpoint where
  queueDepth : Int
  models : List String

/-- Modelled from the spec: `ModelRegistry.GetEndpointsForPool` (§4.1) is not
among the provided sources; it returns a point-in-time snapshot of the
endpoints of a pool, so the registry is embedded as that lookup function. -/
def ModelRegistry : Type := String → List Endpoint

/-- `Destination` from the source.  `LatencyCondition` is carried but — like
in the source — never evaluated by `evaluateConditions`. -/
structure Destination where
  pool : String
  weight : Int
  queueDepthCondition : Option ThresholdCondition
  replicaCondition : Option ThresholdCondition
  latencyCondition : Option ThresholdCondition
  requireModelLoaded : Bool
  timeCondition : Option TimeWindow

/-- `RouteRequest` fields used by matching and selection. -/
structure RouteRequest where
  operation : String
  model : String
  headers : List (String × String)
  sourceTable : String
  timestamp : GoTime

/-- `RouteManager.evaluateConditions`: empty pool is ineligible; otherwise
aggregate the pool stats (average queue depth, replica count, any endpoint
with the requested model) and check each populated condition. -/
def evaluateConditions (dest : Destination) (req : RouteRequest) (registry : ModelRegistry) :
    Bool :=
  let endpoints := registry dest.pool
  if endpoints.isEmpty then false
  else
    let totalQueueDepth : Int := (endpoints.map (fun ep => ep.queueDepth)).sum
    let modelLoaded : Bool := endpoints.any (fun ep => ep.models.contains req.model)
    let avgQueueDepth : ℚ := (totalQueueDepth : ℚ) / (endpoints.length : ℚ)
    (match dest.queueDepthCondition with
     | some c => c.evaluate avgQueueDepth
     | none => true) &&
    (match dest.replicaCondition with
     | some c => c.evaluate ((endpoints.length : ℚ))
     | none => true) &&
    (!dest.requireModelLoaded || modelLoaded) &&
    (match dest.timeCondition with
     | some tw => tw.isActive req.timestamp
     | none => true)

/-- The max-weight scan of `SelectDestination` (`best == nil || weight > best`). -/
def pickBest : Option Destination → List Destination → Option Destination
  | best, [] => best
  | none, d :: rest => pickBest (some d) rest
  | some b, d :: rest => if d.weight > b.weight then pickBest (some d) rest else pickBest (some b) rest

/-- `RouteManager.SelectDestination` on a route's destination list: filter the
eligible destinations (the unused `totalWeight` accumulator is omitted), return
`nil` when none, the single one when unique, else the first of the maximal
weight. -/
def selectDestination (destinations : List Destination) (req : RouteRequest)
    (registry : ModelRegistry) : Option Destination :=
  let eligible := destinations.filter (fun d => evaluateConditions d req registry)
  if eligible.isEmpty then none
  else if eligible.length = 1 then eligible.head?
  else pickBest none eligible

/-! ## Routes and the route store (`part_009`: `StringMatcher`, `Route`,
`RouteManager.AddRoute`, `RouteManager.Match`, `RouteManager.matchRoute`) -/

/-- `StringMatcher`: the compiled header regex, if any, is embedded as its
matching semantics. -/
structure StringMatcher where
  exact : String
  prefixStr : String
  regex : Option (String → Bool)

/-- `StringMatcher.Matches`. -/
def StringMatcher.matches (m : StringMatcher) (value : String) : Bool :=
  (m.exact != "" && value == m.exact) ||
  (m.prefixStr != "" && goHasPrefix value m.prefixStr) ||
  (match m.regex with
   | some r => r value
   | none => false)

/-- `Route`: the compiled form held by the `RouteManager`.  Model patterns
are embedded as their matching semantics; the Go set-maps `Operations` and
`SourceTables` as lists with membership; `HeaderMatchers` as an association
list.  The mutable stats fields (`MatchedRequests`, `LastMatchTime`) play no
role in any claim and are omitted. -/
structure Route where
  name : String
  priority : Int
  operations : List String
  modelPatterns : List (String → Bool)
  headerMatchers : List (String × StringMatcher)
  sourceTables : List String
  timeWindow : Option TimeWindow
  destinations : List Destination
  rateLimiter : Option RateLimiter

/-- `RouteManager.matchRoute`: every populated clause of the match block must
accept the request. -/
def matchRoute (route : Route) (req : RouteRequest) : Bool :=
  (route.operations.isEmpty || route.operations.contains req.operation) &&
  (route.modelPatterns.isEmpty || route.modelPatterns.any (fun q => q req.model)) &&
  (route.headerMatchers.all (fun hm =>
    match lookupAssoc req.headers hm.1 with
    | some v => hm.2.matches v
    | none => false)) &&
  (route.sourceTables.isEmpty || route.sourceTables.contains req.sourceTable) &&
  (match route.timeWindow with
   | some tw => tw.isActive req.timestamp
   | none => true)

/-- The comparator of the `sort.Slice` call in `AddRoute`, as a preorder:
`a` comes no later than `b` when `a` has strictly higher priority, or equal
priority and name not after `b`'s. -/
def routePref (a b : Route) : Prop :=
  b.priority < a.priority ∨ (a.priority = b.priority ∧ a.name ≤ b.name)

instance : DecidableRel routePref := fun a b => by
  unfold routePref
  infer_instance

instance : IsTotal Route routePref where
  total a b := by
    rcases lt_trichotomy a.priority b.priority with h | h | h
    · exact Or.inr (Or.inl h)
    · rcases le_total a.name b.name with hn | hn
      · exact Or.inl (Or.inr ⟨h, hn⟩)
      · exact Or.inr (Or.inr ⟨h.symm, hn⟩)
    · exact Or.inl (Or.inl h)

instance : IsTrans Route routePref where
  trans a b c hab hbc := by
    rcases hab with h1 | ⟨h1, h1n⟩ <;> rcases hbc with h2 | ⟨h2, h2n⟩
    · exact Or.inl (h2.trans h1)
    · exact Or.inl (h2 ▸ h1)
    · exact Or.inl (h1 ▸ h2)
    · exact Or.inr ⟨h1.trans h2, le_trans h1n h2n⟩

/-- `RouteManager.AddRoute`: drop any stored route with the same name, append
the new route, and re-sort by (priority descending, name ascending).  The Go
`sort.Slice` is embedded as insertion sort by the same comparator; on the
name-unique lists that `AddRoute` maintains the comparator admits no ties, so
any correct sort produces this order. -/
def addRoute (routes : List Route) (route : Route) : List Route :=
  List.insertionSort routePref ((routes.filter (fun r => r.name != route.name)) ++ [route])

/-- `RouteManager.Match`: scan the stored routes in order, returning the first
that matches (the stats updates do not affect the result and are omitted). -/
def matchReq (routes : List Route) (req : RouteRequest) : Option Route :=
  routes.find? (fun route => matchRoute route req)

/-! ## Theorems: route matching (C1) -/

theorem routePref_refl (a : Route) : routePref a a :=
  Or.inr ⟨rfl, le_refl _⟩

theorem sorted_addRoute (l : List Route) (r : Route) :
    List.Sorted routePref (addRoute l r) :=
  List.sorted_insertionSort routePref _

theorem sorted_foldl_addRoute (rs : List Route) :
    ∀ l : List Route, List.Sorted routePref l →
      List.Sorted routePref (rs.foldl addRoute l) := by
  induction rs with
  | nil => exact fun l hl => hl
  | cons r rs ih =>
    intro l _
    exact ih (addRoute l r) (sorted_addRoute l r)

theorem find?_sorted_best {l : List Route} (hs : List.Sorted routePref l)
    {req : RouteRequest} {r : Route} (h : matchReq l req = some r) :
    r ∈ l ∧ matchRoute r req = true ∧
      ∀ x ∈ l, matchRoute x req = true → routePref r x := by
  induction l with
  | nil => cases h
  | cons a l ih =>
    rw [List.sorted_cons] at hs
    rw [matchReq, List.find?_cons] at h
    by_cases ha : matchRoute a req = true
    · simp only [ha] at h
      cases h
      refine ⟨List.mem_cons_self _ _, ha, ?_⟩
      intro x hx _
      rcases List.mem_cons.mp hx with hx | hx
      · exact hx ▸ routePref_refl _
      · exact hs.1 x hx
    · rw [Bool.not_eq_true] at ha
      simp only [ha] at h
      obtain ⟨hmem, hmatch, hbest⟩ := ih hs.2 h
      refine ⟨List.mem_cons_of_mem _ hmem, hmatch, ?_⟩
      intro x hx hxm
      rcases List.mem_cons.mp hx with hx | hx
      · rw [hx, ha] at hxm
        cases hxm
      · exact hbest x hx hxm

/-- C1: for every collection of routes inserted through `AddRoute` (starting
from the empty manager) and every request, `Match` returns a stored route that
accepts the request and is preferred (strictly higher priority, or equal
priority and no later name) over every stored route accepting the request; and
it returns `nil` exactly when no stored route accepts the request. -/
theorem match_returns_best (rs : List Route) (req : RouteRequest) :
    (∀ r, matchReq (rs.foldl addRoute []) req = some r →
      r ∈ rs.foldl addRoute [] ∧ matchRoute r req = true ∧
        ∀ x ∈ rs.foldl addRoute [], matchRoute x req = true → routePref r x) ∧
    (matchReq (rs.foldl addRoute []) req = none ↔
      ∀ x ∈ rs.foldl addRoute [], matchRoute x req = false) := by
  have hs : List.Sorted routePref (rs.foldl addRoute []) :=
    sorted_foldl_addRoute rs [] List.sorted_nil
  refine ⟨fun r h => find?_sorted_best hs h, ?_⟩
  rw [matchReq, List.find?_eq_none]
  constructor
  · intro h x hx
    simpa using h x hx
  · intro h x hx
    simp [h x hx]

/-- An unconstrained route (every match clause empty) used as witness data. -/
def routeAllA : Route :=
  { name := "a", priority := 200, operations := [], modelPatterns := [],
    headerMatchers := [], sourceTables := [], timeWindow := none,
    destinations := [], rateLimiter := none }

/-- A sample request used as witness data. -/
def reqSample : RouteRequest :=
  { operation := "embed", model := "bge-small", headers := [], sourceTable := "",
    timestamp := ⟨0, 0, 0⟩ }

/-- Witness for `match_returns_best`: on the store built from the single route
`routeAllA`, `Match` returns it and it is maximal. -/
theorem match_returns_best_witness :
    routeAllA ∈ ([routeAllA].foldl addRoute []) ∧ matchRoute routeAllA reqSample = true ∧
      ∀ x ∈ ([routeAllA].foldl addRoute []), matchRoute x reqSample = true →
        routePref routeAllA x :=
  (match_returns_best [routeAllA] reqSample).1 routeAllA rfl

/-! ## Theorems: destination selection (C5) -/

/-- Eligibility as the claim words it: the pool has endpoints; a populated
queue-depth condition holds on the pool's average queue depth; a populated
replica-count condition holds on the replica count; when `modelLoaded` is
required some endpoint of the pool reports the requested model; a populated
time condition covers the request timestamp. -/
def EligibleSpec (d : Destination) (req : RouteRequest) (registry : ModelRegistry) : Prop :=
  registry d.pool ≠ [] ∧
  (∀ c, d.queueDepthCondition = some c →
    c.evaluate (((((registry d.pool).map (fun ep => ep.queueDepth)).sum : Int) : ℚ) /
      (((registry d.pool).length : Nat) : ℚ)) = true) ∧
  (∀ c, d.replicaCondition = some c →
    c.evaluate ((((registry d.pool).length : Nat) : ℚ)) = true) ∧
  (d.requireModelLoaded = true → ∃ ep ∈ registry d.pool, ep.models.contains req.model = true) ∧
  (∀ tw, d.timeCondition = some tw → tw.isActive req.timestamp = true)

theorem evaluateConditions_iff (d : Destination) (req : RouteRequest)
    (registry : ModelRegistry) :
    evaluateConditions d req registry = true ↔ EligibleSpec d req registry := by
  rw [evaluateConditions, EligibleSpec]
  by_cases he : (registry d.pool).isEmpty
  · rw [if_pos he]
    simp only [List.isEmpty_iff] at he
    simp [he]
  · rw [if_neg he]
    simp only [List.isEmpty_iff] at he
    simp only [Bool.and_eq_true, ne_eq, he, not_false_iff, true_and]
    constructor
    · rintro ⟨⟨⟨hqd, hrep⟩, hml⟩, htw⟩
      refine ⟨?_, ?_, ?_, ?_⟩
      · intro c hc
        rw [hc] at hqd
        exact hqd
      · intro c hc
        rw [hc] at hrep
        exact hrep
      · intro hreq
        rw [hreq] at hml
        simp only [Bool.not_true, Bool.false_or] at hml
        obtain ⟨ep, hep, hm⟩ := List.any_eq_true.mp hml
        exact ⟨ep, hep, hm⟩
      · intro tw htwc
        rw [htwc] at htw
        exact htw
    · rintro ⟨hqd, hrep, hml, htw⟩
      refine ⟨⟨⟨?_, ?_⟩, ?_⟩, ?_⟩
      · cases hc : d.queueDepthCondition with
        | none => rfl
        | some c => exact hqd c hc
      · cases hc : d.replicaCondition with
        | none => rfl
        | some c => exact hrep c hc
      · cases hreq : d.requireModelLoaded with
        | false => rfl
        | true =>
          obtain ⟨ep, hep, hm⟩ := hml hreq
          simp only [Bool.not_true, Bool.false_or]
          exact List.any_eq_true.mpr ⟨ep, hep, hm⟩
      · cases hc : d.timeCondition with
        | none => rfl
        | some tw => exact htw tw hc

theorem pickBest_some {l : List Destination} :
    ∀ {b d : Destination}, pickBest (some b) l = some d →
      (d = b ∨ d ∈ l) ∧ b.weight ≤ d.weight ∧ ∀ x ∈ l, x.weight ≤ d.weight := by
  induction l with
  | nil =>
    intro b d h
    cases h
    exact ⟨Or.inl rfl, le_refl _, by simp⟩
  | cons a l ih =>
    intro b d h
    rw [pickBest] at h
    by_cases hw : a.weight > b.weight
    · rw [if_pos hw] at h
      obtain ⟨hmem, hle, hall⟩ := ih h
      refine ⟨?_, le_of_lt (lt_of_lt_of_le hw hle), ?_⟩
      · rcases hmem with rfl | hmem
        · exact Or.inr (List.mem_cons_self _ _)
        · exact Or.inr (List.mem_cons_of_mem _ hmem)
      · intro x hx
        rcases List.mem_cons.mp hx with rfl | hx
        · exact hle
        · exact hall x hx
    · rw [if_neg hw] at h
      obtain ⟨hmem, hle, hall⟩ := ih h
      push_neg at hw
      refine ⟨?_, hle, ?_⟩
      · rcases hmem with rfl | hmem
        · exact Or.inl rfl
        · exact Or.inr (List.mem_cons_of_mem _ hmem)
      · intro x hx
        rcases List.mem_cons.mp hx with rfl | hx
        · exact le_trans hw hle
        · exact hall x hx

theorem pickBest_isSome (l : List Destination) :
    ∀ b : Destination, (pickBest (some b) l).isSome = true := by
  induction l with
  | nil => intro b; rfl
  | cons a l ih =>
    intro b
    rw [pickBest]
    by_cases hw : a.weight > b.weight
    · rw [if_pos hw]; exact ih a
    · rw [if_neg hw]; exact ih b

theorem selectCore_none {el : List Destination} (h : el ≠ []) :
    (if el.isEmpty then none else if el.length = 1 then el.head? else pickBest none el) ≠
      (none : Option Destination) := by
  cases el with
  | nil => exact absurd rfl h
  | cons a l =>
    rw [if_neg (by simp)]
    by_cases hl : (a :: l).length = 1
    · rw [if_pos hl]
      simp
    · rw [if_neg hl, pickBest]
      intro hc
      have := pickBest_isSome l a
      rw [hc] at this
      cases this

theorem selectCore_some {el : List Destination} {d : Destination}
    (h : (if el.isEmpty then none else if el.length = 1 then el.head? else pickBest none el) =
      some d) :
    d ∈ el ∧ ∀ x ∈ el, x.weight ≤ d.weight := by
  cases el with
  | nil => cases h
  | cons a l =>
    rw [if_neg (by simp)] at h
    by_cases hl : (a :: l).length = 1
    · rw [if_pos hl] at h
      simp only [List.head?_cons, Option.some_inj] at h
      subst h
      have hnil : l = [] := by simpa using hl
      subst hnil
      refine ⟨List.mem_cons_self _ _, ?_⟩
      intro x hx
      rcases List.mem_cons.mp hx with rfl | hx
      · exact le_refl _
      · cases hx
    · rw [if_neg hl, pickBest] at h
      obtain ⟨hmem, hle, hall⟩ := pickBest_some h
      refine ⟨?_, ?_⟩
      · rcases hmem with rfl | hmem
        · exact List.mem_cons_self _ _
        · exact List.mem_cons_of_mem _ hmem
      · intro x hx
        rcases List.mem_cons.mp hx with rfl | hx
        · exact hle
        · exact hall x hx

/-- C5: `SelectDestination` returns `nil` exactly when no destination of the
route is eligible (in the claim's sense, shown equivalent to the code's
`evaluateConditions` by `evaluateConditions_iff`); otherwise it returns an
eligible destination of the route whose weight is maximal among the eligible
destinations. -/
theorem selectDestination_spec (dests : List Destination) (req : RouteRequest)
    (registry : ModelRegistry) :
    (selectDestination dests req registry = none ↔
      ∀ d ∈ dests, ¬ EligibleSpec d req registry) ∧
    (∀ d, selectDestination dests req registry = some d →
      d ∈ dests ∧ EligibleSpec d req registry ∧
        ∀ x ∈ dests, EligibleSpec x req registry → x.weight ≤ d.weight) := by
  have hmem : ∀ x, x ∈ dests.filter (fun q => evaluateConditions q req registry) ↔
      x ∈ dests ∧ EligibleSpec x req registry := by
    intro x
    rw [List.mem_filter]
    constructor
    · rintro ⟨h1, h2⟩
      exact ⟨h1, (evaluateConditions_iff x req registry).mp h2⟩
    · rintro ⟨h1, h2⟩
      exact ⟨h1, (evaluateConditions_iff x req registry).mpr h2⟩
  rw [selectDestination]
  constructor
  · constructor
    · intro h d hd hE
      have hne : dests.filter (fun q => evaluateConditions q req registry) ≠ [] := by
        intro hc
        have : d ∈ ([] : List Destination) := hc ▸ (hmem d).mpr ⟨hd, hE⟩
        cases this
      exact selectCore_none hne h
    · intro h
      have hnil : dests.filter (fun q => evaluateConditions q req registry) = [] := by
        cases hf : dests.filter (fun q => evaluateConditions q req registry) with
        | nil => rfl
        | cons a l =>
          have ha := (hmem a).mp (hf ▸ List.mem_cons_self a l)
          exact absurd ha.2 (h a ha.1)
      rw [hnil]
      rfl
  · intro d h
    obtain ⟨hd, hall⟩ := selectCore_some h
    have hdd := (hmem d).mp hd
    refine ⟨hdd.1, hdd.2, ?_⟩
    intro x hx hE
    exact hall x ((hmem x).mpr ⟨hx, hE⟩)

/-- An unconditioned destination on pool `"A"`, witness data. -/
def destA : Destination :=
  { pool := "A", weight := 100, queueDepthCondition := none, replicaCondition := none,
    latencyCondition := none, requireModelLoaded := false, timeCondition := none }

/-- A registry with one endpoint in every pool, witness data. -/
def registrySample : ModelRegistry :=
  fun _ => [{ queueDepth := 0, models := ["bge-small"] }]

/-- Witness for `selectDestination_spec`: on a route with the single
destination `destA`, selection returns it and it is maximal. -/
theorem selectDestination_spec_witness :
    destA ∈ [destA] ∧ EligibleSpec destA reqSample registrySample ∧
      ∀ x ∈ [destA], EligibleSpec x reqSample registrySample → x.weight ≤ destA.weight :=
  (selectDestination_spec [destA] reqSample registrySample).2 destA rfl

/-! ## Theorems: rate limiting (C3) -/

theorem refill_le_cap (rate cap tok last now : ℚ) : refill rate cap tok last now ≤ cap ∨
    refill rate cap tok last now = tok + (now - last) * rate := by
  rw [refill]
  by_cases h : tok + (now - last) * rate > cap
  · rw [if_pos h]
    exact Or.inl (le_refl _)
  · rw [if_neg h]
    exact Or.inr rfl

theorem refill_le_cap' (rate cap tok last now : ℚ) :
    refill rate cap tok last now ≤ cap := by
  rw [refill]
  by_cases h : tok + (now - last) * rate > cap
  · rw [if_pos h]
  · rw [if_neg h]
    exact le_of_not_lt h

theorem refill_le_linear (rate cap tok last now : ℚ) :
    refill rate cap tok last now ≤ tok + (now - last) * rate := by
  rw [refill]
  by_cases h : tok + (now - last) * rate > cap
  · rw [if_pos h]
    exact le_of_lt h
  · rw [if_neg h]

theorem refill_nonneg (rate cap tok last now : ℚ) (hr : 0 ≤ rate) (hcap : 0 ≤ cap)
    (htok : 0 ≤ tok) (hlast : last ≤ now) : 0 ≤ refill rate cap tok last now := by
  rw [refill]
  by_cases h : tok + (now - last) * rate > cap
  · rw [if_pos h]
    exact hcap
  · rw [if_neg h]
    have : 0 ≤ (now - last) * rate := mul_nonneg (by linarith) hr
    linarith

theorem chainLe_le {l : ℚ} {ts : List ℚ} (h : ChainLe l ts) : ∀ t ∈ ts, l ≤ t := by
  induction ts generalizing l with
  | nil => intro t ht; cases ht
  | cons t ts ih =>
    intro x hx
    rcases List.mem_cons.mp hx with rfl | hx
    · exact h.1
    · exact le_trans h.1 (ih h.2 x hx)

theorem bucketTrace_fst (rate cap : ℚ) :
    ∀ (ts : List ℚ) (tok last : ℚ),
      (bucketTrace rate cap tok last ts).map Prod.fst = ts := by
  intro ts
  induction ts with
  | nil => intro tok last; rfl
  | cons t ts ih =>
    intro tok last
    rw [bucketTrace]
    by_cases h : refill rate cap tok last t ≥ 1
    · rw [if_pos h, List.map_cons, ih]
    · rw [if_neg h, List.map_cons, ih]

theorem admittedUpTo_zero {tr : List (ℚ × Bool)} {b : ℚ} (h : ∀ q ∈ tr, b < q.1) :
    admittedUpTo tr b = 0 := by
  rw [admittedUpTo, List.length_eq_zero]
  rw [List.filter_eq_nil_iff]
  intro q hq
  simp [not_le.mpr (h q hq)]

theorem admittedInWindow_zero {tr : List (ℚ × Bool)} {a b : ℚ} (h : ∀ q ∈ tr, b < q.1) :
    admittedInWindow tr a b = 0 := by
  rw [admittedInWindow, List.length_eq_zero]
  rw [List.filter_eq_nil_iff]
  intro q hq
  simp [not_le.mpr (h q hq)]

theorem admittedInWindow_eq_upTo {tr : List (ℚ × Bool)} {a b : ℚ}
    (h : ∀ q ∈ tr, a ≤ q.1) : admittedInWindow tr a b = admittedUpTo tr b := by
  rw [admittedInWindow, admittedUpTo]
  congr 1
  apply List.filter_congr
  intro q hq
  simp [h q hq]

theorem bucketTrace_upTo (rate cap : ℚ) (hr : 0 ≤ rate) (hcap : 0 ≤ cap) (b : ℚ) :
    ∀ (ts : List ℚ) (tok last : ℚ), 0 ≤ tok → tok ≤ cap → ChainLe last ts → last ≤ b →
      (admittedUpTo (bucketTrace rate cap tok last ts) b : ℚ) ≤ tok + rate * (b - last) := by
  intro ts
  induction ts with
  | nil =>
    intro tok last htok0 _ _ hlb
    have : 0 ≤ rate * (b - last) := mul_nonneg hr (by linarith)
    simp only [bucketTrace, admittedUpTo, List.filter_nil, List.length_nil, Nat.cast_zero]
    linarith
  | cons t ts ih =>
    intro tok last htok0 htokc hchain hlb
    obtain ⟨hlt, hchain'⟩ := hchain
    have hr0 : 0 ≤ refill rate cap tok last t := refill_nonneg _ _ _ _ _ hr hcap htok0 hlt
    have hrc : refill rate cap tok last t ≤ cap := refill_le_cap' _ _ _ _ _
    have hrl : refill rate cap tok last t ≤ tok + (t - last) * rate := refill_le_linear _ _ _ _ _
    have hzero : ¬ t ≤ b → ∀ tok' : ℚ,
        admittedUpTo (bucketTrace rate cap tok' t ts) b = 0 := by
      intro htb tok'
      apply admittedUpTo_zero
      intro q hq
      have hq1 : q.1 ∈ ts := by
        have := List.mem_map_of_mem Prod.fst hq
        rwa [bucketTrace_fst] at this
      have := chainLe_le hchain' q.1 hq1
      push_neg at htb
      linarith
    rw [bucketTrace]
    by_cases hadm : refill rate cap tok last t ≥ 1
    · rw [if_pos hadm]
      by_cases htb : t ≤ b
      · have hrec := ih (refill rate cap tok last t - 1) t (by linarith) (by linarith) hchain' htb
        simp only [admittedUpTo, List.filter_cons, Bool.true_and, decide_eq_true_eq] at hrec ⊢
        rw [if_pos htb, List.length_cons]
        push_cast
        nlinarith [mul_nonneg hr (sub_nonneg.mpr hlt)]
      · have hz := hzero htb (refill rate cap tok last t - 1)
        simp only [admittedUpTo, List.filter_cons, Bool.true_and, decide_eq_true_eq] at hz ⊢
        rw [if_neg htb, hz]
        have : 0 ≤ rate * (b - last) := mul_nonneg hr (by linarith)
        push_cast
        linarith
    · rw [if_neg hadm]
      by_cases htb : t ≤ b
      · have hrec := ih (refill rate cap tok last t) t hr0 hrc hchain' htb
        simp only [admittedUpTo] at hrec ⊢
        rw [List.filter_cons, if_neg (by simp)]
        nlinarith [mul_nonneg hr (sub_nonneg.mpr hlt)]
      · have hz := hzero htb (refill rate cap tok last t)
        simp only [admittedUpTo] at hz ⊢
        rw [List.filter_cons, if_neg (by simp), hz]
        have : 0 ≤ rate * (b - last) := mul_nonneg hr (by linarith)
        push_cast
        linarith

theorem bucketTrace_window (rate cap : ℚ) (hr : 0 ≤ rate) (hcap : 0 ≤ cap) :
    ∀ (ts : List ℚ) (tok last : ℚ), 0 ≤ tok → tok ≤ cap → ChainLe last ts →
      ∀ a b : ℚ, a ≤ b →
        (admittedInWindow (bucketTrace rate cap tok last ts) a b : ℚ) ≤ rate * (b - a) + cap := by
  intro ts
  induction ts with
  | nil =>
    intro tok last _ _ _ a b hab
    have : 0 ≤ rate * (b - a) := mul_nonneg hr (by linarith)
    simp only [bucketTrace, admittedInWindow, List.filter_nil, List.length_nil, Nat.cast_zero]
    linarith
  | cons t ts ih =>
    intro tok last htok0 htokc hchain a b hab
    obtain ⟨hlt, hchain'⟩ := hchain
    have hr0 : 0 ≤ refill rate cap tok last t := refill_nonneg _ _ _ _ _ hr hcap htok0 hlt
    have hrc : refill rate cap tok last t ≤ cap := refill_le_cap' _ _ _ _ _
    have htail : ∀ tok' : ℚ, ∀ q ∈ bucketTrace rate cap tok' t ts, t ≤ q.1 := by
      intro tok' q hq
      have hq1 : q.1 ∈ ts := by
        have := List.mem_map_of_mem Prod.fst hq
        rwa [bucketTrace_fst] at this
      exact chainLe_le hchain' q.1 hq1
    rw [bucketTrace]
    by_cases hta : a ≤ t
    · by_cases htb : t ≤ b
      · -- the head call is inside the window
        have hup : ∀ tok' : ℚ, 0 ≤ tok' → tok' ≤ cap →
            (admittedInWindow (bucketTrace rate cap tok' t ts) a b : ℚ) ≤
              tok' + rate * (b - t) := by
          intro tok' h0 hc
          rw [admittedInWindow_eq_upTo (fun q hq => le_trans hta (htail tok' q hq))]
          exact bucketTrace_upTo rate cap hr hcap b ts tok' t h0 hc hchain' htb
        by_cases hadm : refill rate cap tok last t ≥ 1
        · rw [if_pos hadm]
          have hrec := hup (refill rate cap tok last t - 1) (by linarith) (by linarith)
          simp only [admittedInWindow, List.filter_cons, Bool.true_and,
            decide_eq_true_eq] at hrec ⊢
          rw [if_pos (by simp [hta, htb]), List.length_cons]
          push_cast
          nlinarith [mul_nonneg hr (sub_nonneg.mpr hta)]
        · rw [if_neg hadm]
          have hrec := hup (refill rate cap tok last t) hr0 hrc
          simp only [admittedInWindow] at hrec ⊢
          rw [List.filter_cons, if_neg (by simp)]
          nlinarith [mul_nonneg hr (sub_nonneg.mpr hta)]
      · -- the whole remaining trace is past the window
        have hz : ∀ tok' : ℚ,
            admittedInWindow (bucketTrace rate cap tok' t ts) a b = 0 := by
          intro tok'
          apply admittedInWindow_zero
          intro q hq
          have := htail tok' q hq
          push_neg at htb
          linarith
        have hnn : 0 ≤ rate * (b - a) := mul_nonneg hr (by linarith)
        by_cases hadm : refill rate cap tok last t ≥ 1
        · rw [if_pos hadm]
          have hz' := hz (refill rate cap tok last t - 1)
          simp only [admittedInWindow, List.filter_cons, Bool.true_and,
            decide_eq_true_eq] at hz' ⊢
          rw [if_neg (by simp [htb]), hz']
          push_cast
          linarith
        · rw [if_neg hadm]
          have hz' := hz (refill rate cap tok last t)
          simp only [admittedInWindow] at hz' ⊢
          rw [List.filter_cons, if_neg (by simp), hz']
          push_cast
          linarith
    · -- the head call precedes the window
      by_cases hadm : refill rate cap tok last t ≥ 1
      · rw [if_pos hadm]
        have hrec := ih (refill rate cap tok last t - 1) t (by linarith) (by linarith)
          hchain' a b hab
        simp only [admittedInWindow, List.filter_cons, Bool.true_and,
          decide_eq_true_eq] at hrec ⊢
        rw [if_neg (by simp [hta])]
        exact hrec
      · rw [if_neg hadm]
        have hrec := ih (refill rate cap tok last t) t hr0 hrc hchain' a b hab
        simp only [admittedInWindow] at hrec ⊢
        rw [List.filter_cons, if_neg (by simp)]
        exact hrec

theorem allowTrace_global (calls : List (String × ℚ)) :
    ∀ rl : RateLimiter, rl.perModel = false →
      allowTrace rl calls =
        bucketTrace rl.rate (rl.burstSize : ℚ) rl.tokens rl.lastUpdate
          (calls.map (fun c => c.2)) := by
  induction calls with
  | nil => intro rl _; rfl
  | cons c rest ih =>
    intro rl h
    obtain ⟨m, t⟩ := c
    simp only [allowTrace, RateLimiter.allow, h, Bool.false_eq_true, if_false,
      List.map_cons, bucketTrace, refill]
    by_cases hge : (if rl.tokens + (t - rl.lastUpdate) * rl.rate > (rl.burstSize : ℚ)
        then (rl.burstSize : ℚ) else rl.tokens + (t - rl.lastUpdate) * rl.rate) ≥ 1
    · rw [if_pos hge, if_pos hge]
      exact congrArg (List.cons _) (ih _ rfl)
    · rw [if_neg hge, if_neg hge]
      exact congrArg (List.cons _) (ih _ rfl)

/-- C3 (amended claim, proved): for a rate limiter created by
`NewRateLimiter(rps, burst, perModel=false)` — a single global token bucket —
and any sequence of `Allow` calls at non-decreasing instants, the number of
admitted calls inside any window `[a, a+W]` is at most `rps·W + burst`:
refill is continuous at `rps` tokens per second, capped at `burst`, and each
admitted call consumes one token. -/
theorem rateLimiter_window_bound (rps burst : Int) (t0 : ℚ) (calls : List (String × ℚ))
    (hr : 0 ≤ rps) (hb : 0 ≤ burst)
    (hchain : ChainLe t0 (calls.map (fun c => c.2))) (a W : ℚ) (hW : 0 ≤ W) :
    (admittedInWindow (allowTrace (newRateLimiter rps burst false t0) calls) a (a + W) : ℚ) ≤
      (rps : ℚ) * W + (burst : ℚ) := by
  rw [allowTrace_global calls _ rfl]
  have hbq : (0 : ℚ) ≤ (burst : ℚ) := by exact_mod_cast hb
  have hrq : (0 : ℚ) ≤ (rps : ℚ) := by exact_mod_cast hr
  have hmain := bucketTrace_window ((rps : Int) : ℚ) ((burst : Int) : ℚ) hrq hbq
    (calls.map (fun c => c.2)) ((burst : Int) : ℚ) t0 hbq (le_refl _) hchain
    a (a + W) (by linarith)
  rw [show a + W - a = W by ring] at hmain
  exact hmain

/-- Witness for `rateLimiter_window_bound`: a single call on a `1 rps / burst
1` limiter admits at most `1·1 + 1` requests in the window `[0, 1]`. -/
theorem rateLimiter_window_bound_witness :
    (admittedInWindow (allowTrace (newRateLimiter 1 1 false 0) [("x", 0)]) 0 (0 + 1) : ℚ) ≤
      ((1 : Int) : ℚ) * 1 + ((1 : Int) : ℚ) :=
  rateLimiter_window_bound 1 1 0 [("x", 0)] (by norm_num) (by norm_num)
    ⟨le_refl 0, trivial⟩ 0 1 (by norm_num)

/-- C3 (counterexample to the claim as stated): with `perModel=true`, a
limiter created with `rps=1, burst=1` admits two calls (for two distinct
models) at instant 0, exceeding `rate·W + burst = 3/2` for the window
`[0, 1/2]`; the per-model map gives each model its own fresh full bucket. -/
theorem rateLimiter_claim_counterexample :
    ChainLe 0 (([("a", 0), ("b", 0)] : List (String × ℚ)).map (fun c => c.2)) ∧
    ¬ ((admittedInWindow (allowTrace (newRateLimiter 1 1 true 0) [("a", 0), ("b", 0)])
          0 (0 + (1/2 : ℚ)) : ℚ) ≤ ((1 : Int) : ℚ) * (1/2 : ℚ) + ((1 : Int) : ℚ)) := by
  constructor
  · exact ⟨le_refl 0, le_refl 0, trivial⟩
  · have htr : allowTrace (newRateLimiter 1 1 true 0) [("a", 0), ("b", 0)] =
        [((0 : ℚ), true), ((0 : ℚ), true)] := by
      simp +decide [allowTrace, RateLimiter.allow, newRateLimiter, lookupAssoc, setAssoc,
        List.find?]
    rw [htr]
    norm_num [admittedInWindow, List.filter]

/-! ## Reranking cache key (`reranking_cache.go`: `CachedReranker.cacheKey`)

`cacheKey` feeds a byte stream into an `xxhash` 64-bit digest and returns the
8-byte big-endian encoding of `Sum64()` as the key.  The digest itself is
opaque here: it is embedded as an arbitrary function `H` from byte streams to
numbers, reduced mod `2^64`; the claims are about the byte stream fed to it
and the final encoding. -/

/-- The UTF-8 bytes of a string, as written by `WriteString`
(`String.toUTF8` produces exactly `data.flatMap utf8EncodeChar`). -/
def strBytes (s : String) : List Nat :=
  (s.data.flatMap String.utf8EncodeChar).map (fun b => b.toNat)

/-- The per-prompt section of the hashed stream: `"p"`, the two bytes
`{byte(i >> 8), byte(i)}`, `":"`, the prompt, `"|"`. -/
def promptsStream : Nat → List String → List Nat
  | _, [] => []
  | i, p :: ps =>
    strBytes "p" ++ [(i >>> 8) % 256, i % 256] ++ strBytes ":" ++ strBytes p ++
      strBytes "|" ++ promptsStream (i + 1) ps

/-- The full byte stream `cacheKey` hashes: model, `"|"`, `"q:"`, query,
`"|"`, then the prompt sections. -/
def cacheKeyStream (model query : String) (prompts : List String) : List Nat :=
  strBytes model ++ strBytes "|" ++ strBytes "q:" ++ strBytes query ++ strBytes "|" ++
    promptsStream 0 prompts

/-- 8-byte big-endian encoding of a 64-bit value
(`binary.BigEndian.PutUint64`). -/
def be8 (n : Nat) : List Nat :=
  [n / 2 ^ 56 % 256, n / 2 ^ 48 % 256, n / 2 ^ 40 % 256, n / 2 ^ 32 % 256,
   n / 2 ^ 24 % 256, n / 2 ^ 16 % 256, n / 2 ^ 8 % 256, n % 256]

/-- `cacheKey(query, prompts)` for model name `model`, with the 64-bit digest
abstracted as `H` (mod `2^64`). -/
def cacheKey (H : List Nat → Nat) (model query : String) (prompts : List String) :
    List Nat :=
  be8 (H (cacheKeyStream model query prompts) % 2 ^ 64)

/-- The concatenation the claim describes, word for word: the model name,
`'|'`, `'q:'`, the query, `'|'`, then for each prompt its index in (two-byte)
big-endian form, `':'`, the prompt text, and `'|'` — and nothing else: no
per-prompt marker. -/
def claimPromptsStream : Nat → List String → List Nat
  | _, [] => []
  | i, p :: ps =>
    [(i >>> 8) % 256, i % 256] ++ strBytes ":" ++ strBytes p ++ strBytes "|" ++
      claimPromptsStream (i + 1) ps

/-- The full stream under the claim's words. -/
def claimKeyStream (model query : String) (prompts : List String) : List Nat :=
  strBytes model ++ strBytes "|" ++ strBytes "q:" ++ strBytes query ++ strBytes "|" ++
    claimPromptsStream 0 prompts

/-- The concatenation as amended: each prompt section carries the marker byte
`'p'` (0x70) before the two-byte big-endian low 16 bits of the index, then
`':'` (0x3a), the prompt, `'|'` (0x7c). -/
def amendedPromptsStream : Nat → List String → List Nat
  | _, [] => []
  | i, p :: ps =>
    112 :: (i >>> 8) % 256 :: i % 256 :: 58 :: (strBytes p ++ 124 :: amendedPromptsStream (i + 1) ps)

/-- The full stream as amended: model, `'|'` (0x7c), `'q'` `':'` (0x71 0x3a),
query, `'|'`, then the amended prompt sections. -/
def amendedKeyStream (model query : String) (prompts : List String) : List Nat :=
  strBytes model ++ 124 :: 113 :: 58 :: (strBytes query ++ 124 :: amendedPromptsStream 0 prompts)

/-- C2 (counterexample): already for one prompt the hashed stream contains the
`'p'` marker the claim omits, so the key differs from the claim's formula for
the hash function `length`: the streams differ as byte sequences. -/
theorem cacheKey_claim_counterexample :
    cacheKeyStream "m" "q" ["d"] ≠ claimKeyStream "m" "q" ["d"] ∧
    cacheKey (fun l => l.length) "m" "q" ["d"] ≠
      be8 ((claimKeyStream "m" "q" ["d"]).length % 2 ^ 64) := by
  constructor <;> decide

theorem promptsStream_amended : ∀ (ps : List String) (i : Nat),
    promptsStream i ps = amendedPromptsStream i ps := by
  intro ps
  induction ps with
  | nil => intro i; rfl
  | cons p ps ih =>
    intro i
    rw [promptsStream, amendedPromptsStream, ih]
    rw [show strBytes "p" = [112] from rfl, show strBytes ":" = [58] from rfl,
      show strBytes "|" = [124] from rfl]
    simp

/-- C2 (amended): for every model name, query and prompt list, the cache key
is the 8-byte big-endian encoding of the 64-bit hash of exactly: the model,
`'|'`, `'q:'`, the query, `'|'`, then for each prompt a `'p'` marker, the
two-byte big-endian encoding of the low 16 bits of its index, `':'`, the
prompt, `'|'` — for any 64-bit hash function `H`. -/
theorem cacheKey_amended (H : List Nat → Nat) (model query : String)
    (prompts : List String) :
    cacheKey H model query prompts = be8 (H (amendedKeyStream model query prompts) % 2 ^ 64) := by
  rw [cacheKey, cacheKeyStream, amendedKeyStream, promptsStream_amended]
  rw [show strBytes "|" = [124] from rfl, show strBytes "q:" = [113, 58] from rfl]
  simp

/-! ## Route upsert and the rate-limiter bucket (`part_008`:
`RouteWatcher.onRouteUpdate`, `RouteWatcher.convertRoute`) -/

/-- The decoded `rateLimiting` block of a TermiteRoute spec (`nil` field means
the key is absent and `getInt32` falls back to its default). -/
structure RateLimitSpec where
  requestsPerSecond : Option Int
  burstSize : Option Int
  perModel : Bool

/-- The rate-limiter part of `convertRoute`: `rps := getInt32(rl,
"requestsPerSecond", 0)`, `burst := getInt32(rl, "burstSize", rps)`, and a
fresh `NewRateLimiter` whenever `rps > 0`. -/
def convertRateLimiter (spec : Option RateLimitSpec) (now : ℚ) : Option RateLimiter :=
  match spec with
  | none => none
  | some rl =>
    let rps := rl.requestsPerSecond.getD 0
    let burst := rl.burstSize.getD rps
    if rps > 0 then some (newRateLimiter rps burst rl.perModel now) else none

/-- A stored route whose limiter bucket has been drained to 0 tokens
(last refill at instant 3). -/
def oldRouteC4 : Route :=
  { name := "ns/r", priority := 100, operations := [], modelPatterns := [],
    headerMatchers := [], sourceTables := [], timeWindow := none, destinations := [],
    rateLimiter := some { rate := 5, burstSize := 10, tokens := 0, lastUpdate := 3,
                          perModel := false, modelLimits := [] } }

/-- The route `convertRoute` builds at instant 7 from an update event whose
`rateLimiting` spec is unchanged (`requestsPerSecond: 5, burstSize: 10`). -/
def updatedRouteC4 : Route :=
  { oldRouteC4 with rateLimiter := convertRateLimiter (some ⟨some 5, some 10, false⟩) 7 }

/-- C4 (the code at the failing input): an update event with an unchanged
rate/burst spec replaces the stored route (`onRouteUpdate` calls
`convertRoute` then `AddRoute`), and the stored limiter afterwards is a fresh
full bucket — tokens reset from 0 to the full burst 10 and the refill
timestamp reset to the conversion instant — although rate and burst are
unchanged; the spec requires the bucket state to be preserved. -/
theorem routeUpdate_resets_bucket :
    (addRoute [oldRouteC4] updatedRouteC4).find? (fun r => r.name == "ns/r") =
      some updatedRouteC4 ∧
    updatedRouteC4.rateLimiter.map (fun rl => rl.rate) =
      oldRouteC4.rateLimiter.map (fun rl => rl.rate) ∧
    updatedRouteC4.rateLimiter.map (fun rl => rl.burstSize) =
      oldRouteC4.rateLimiter.map (fun rl => rl.burstSize) ∧
    oldRouteC4.rateLimiter.map (fun rl => rl.tokens) = some 0 ∧
    updatedRouteC4.rateLimiter.map (fun rl => rl.tokens) = some 10 ∧
    oldRouteC4.rateLimiter.map (fun rl => rl.lastUpdate) = some 3 ∧
    updatedRouteC4.rateLimiter.map (fun rl => rl.lastUpdate) = some 7 := by
  refine ⟨rfl, rfl, rfl, rfl, ?_, rfl, rfl⟩
  norm_num [updatedRouteC4, oldRouteC4, convertRateLimiter, newRateLimiter]

/-! ## TermitePool admission validation (`part_001`: `TermitePool.ValidateCreate`,
`validateTermitePool`, `validateGKEConfig`, `validateNoConflictingSettings`,
`validateReplicaCounts`, `hasGPUResources`) -/

/-- `spec.replicas`. -/
structure ReplicaSpec where
  min : Int
  max : Int

/-- `spec.gke`. -/
structure GKESpec where
  autopilot : Bool
  autopilotComputeClass : String

/-- The fields of a TermitePool spec that validation reads: `spec.gke`
(optional), `spec.hardware.spot`, `spec.replicas`, and the resource-limit keys
of `spec.resources.limits` (absent `Resources` or `Limits` is `none`). -/
structure TermitePool where
  gke : Option GKESpec
  hardwareSpot : Bool
  replicas : ReplicaSpec
  resourceLimits : Option (List String)

/-- `hasGPUResources`. -/
def TermitePool.hasGPUResources (p : TermitePool) : Bool :=
  match p.resourceLimits with
  | none => false
  | some limits => limits.contains "nvidia.com/gpu" || limits.contains "cloud.google.com/gke-gpu"

/-- The valid compute classes. -/
def validComputeClasses : List String :=
  ["Accelerator", "Balanced", "Performance", "Scale-Out", "autopilot", "autopilot-spot"]

/-- `validateGKEConfig` (message texts verbatim from the source). -/
def validateGKEConfig (p : TermitePool) : Option String :=
  match p.gke with
  | none => none
  | some gke =>
    if gke.autopilotComputeClass != "" && !(validComputeClasses.contains gke.autopilotComputeClass) then
      some ("invalid GKE Autopilot compute class '" ++ gke.autopilotComputeClass ++
        "'. Must be one of: Accelerator, Balanced, Performance, Scale-Out, autopilot, autopilot-spot")
    else if gke.autopilotComputeClass != "" && !gke.autopilot then
      some ("spec.gke.autopilotComputeClass is set but spec.gke.autopilot=false\n\nProblem: Compute classes only work with GKE Autopilot clusters.\n\nSolution: Either:\n  Option 1 (Use Autopilot): Set spec.gke.autopilot=true\n  Option 2 (Standard GKE): Remove spec.gke.autopilotComputeClass and use spec.hardware.spot instead")
    else if gke.autopilotComputeClass == "Accelerator" && !p.hasGPUResources then
      some ("spec.gke.autopilotComputeClass='Accelerator' requires GPU resources\n\nProblem: GKE Autopilot's Accelerator compute class is for GPU workloads ONLY.\nFor TPU workloads, do NOT use 'Accelerator' class - TPU provisioning uses node selectors.\n\nSolution for GPU workloads: Add GPU resources to spec.resources\nSolution for TPU workloads: Remove autopilotComputeClass='Accelerator' and use TPU node selectors\n\nExample (GPU):\n  spec:\n    resources:\n      limits:\n        nvidia.com/gpu: \"1\"\n    gke:\n      autopilot: true\n      autopilotComputeClass: \"Accelerator\"\n\nExample (TPU with Spot pricing):\n  spec:\n    hardware:\n      accelerator: \"tpu-v4-podslice\"\n      topology: \"2x2x1\"\n    gke:\n      autopilot: true\n      autopilotComputeClass: \"autopilot-spot\"  # Use this for spot, NOT \"Accelerator\"\n    resources:\n      limits:\n        google.com/tpu: \"4\"")
    else none

/-- `validateNoConflictingSettings` (message verbatim). -/
def validateNoConflictingSettings (p : TermitePool) : Option String :=
  match p.gke with
  | none => none
  | some gke =>
    if !gke.autopilot then none
    else if p.hardwareSpot then
      some ("spec.hardware.spot=true conflicts with spec.gke.autopilot=true\n\nProblem: GKE Autopilot uses compute classes for spot scheduling, not node selectors.\n\nSolution: Remove 'hardware.spot: true' and use 'gke.autopilotComputeClass: autopilot-spot' instead\n\nExample:\n  spec:\n    hardware:\n      # spot: true  # REMOVE THIS\n      accelerator: \"tpu-v5-lite-podslice\"\n      topology: \"2x2\"\n    gke:\n      autopilot: true\n      autopilotComputeClass: 'autopilot-spot'  # ADD THIS")
    else none

/-- `validateReplicaCounts`: note the early `return` — at most one of the
three replica rules is reported. -/
def validateReplicaCounts (p : TermitePool) : Option String :=
  if p.replicas.min < 0 then
    some ("spec.replicas.min must be >= 0, got " ++ toString p.replicas.min)
  else if p.replicas.max ≤ 0 then
    some ("spec.replicas.max must be > 0, got " ++ toString p.replicas.max)
  else if p.replicas.min > p.replicas.max then
    some ("spec.replicas.min (" ++ toString p.replicas.min ++
      ") cannot be greater than spec.replicas.max (" ++ toString p.replicas.max ++ ")")
  else none

/-- The `allErrors` list collected by `validateTermitePool`. -/
def poolErrs (p : TermitePool) : List String :=
  [validateGKEConfig p, validateNoConflictingSettings p, validateReplicaCounts p].filterMap id

/-- `strings.Join(l, sep)`. -/
def goJoin (sep : String) : List String → String
  | [] => ""
  | [e] => e
  | e :: rest => e ++ sep ++ goJoin sep rest

/-- `validateTermitePool` = `ValidateCreate`: aggregate the three validators
into one line-separated message. -/
def validateTermitePool (p : TermitePool) : Option String :=
  if poolErrs p = [] then none
  else some ("TermitePool validation failed:\n  - " ++ goJoin "\n  - " (poolErrs p))

/-! ## Theorems: pool admission validation (C6) -/

theorem goJoin_cons_cons (sep a b : String) (l : List String) :
    goJoin sep (a :: b :: l) = a ++ sep ++ goJoin sep (b :: l) := rfl

theorem mem_infix_goJoin (sep : String) :
    ∀ (l : List String), ∀ e ∈ l, e.data <:+: (goJoin sep l).data := by
  intro l
  induction l with
  | nil => intro e he; cases he
  | cons a l ih =>
    intro e he
    rcases List.mem_cons.mp he with rfl | he
    · cases l with
      | nil => exact List.infix_refl _
      | cons b l' =>
        refine ⟨[], (sep ++ goJoin sep (b :: l')).data, ?_⟩
        rw [goJoin_cons_cons]
        simp [String.data_append]
    · cases l with
      | nil => cases he
      | cons b l' =>
        obtain ⟨s, t, hst⟩ := ih e he
        refine ⟨(a ++ sep).data ++ s, t, ?_⟩
        rw [goJoin_cons_cons]
        simp only [String.data_append, List.append_assoc]
        rw [← List.append_assoc s, hst]

/-- A pool spec violating both replica rules at once: `min = -1 < 0` and
`max = 0 ≤ 0` (no GKE block, no spot flag, no resource limits). -/
def poolC6 : TermitePool :=
  { gke := none, hardwareSpot := false, replicas := ⟨-1, 0⟩, resourceLimits := none }

set_option maxRecDepth 8192 in
/-- C6 (counterexample): `poolC6` violates both replica rules, yet
`ValidateCreate` reports only the `spec.replicas.min` rule — the text of the
`spec.replicas.max` rule does not occur in the aggregated message, because
`validateReplicaCounts` returns on its first violation. -/
theorem poolValidation_claim_counterexample :
    poolC6.replicas.min < 0 ∧ poolC6.replicas.max ≤ 0 ∧
    validateTermitePool poolC6 =
      some "TermitePool validation failed:\n  - spec.replicas.min must be >= 0, got -1" ∧
    ¬ ("spec.replicas.max".data <:+:
        ("TermitePool validation failed:\n  - spec.replicas.min must be >= 0, got -1").data) := by
  refine ⟨by decide, by decide, by decide, by decide⟩

/-- C6 (amended): whenever any of the three validators (GKE config,
conflicting settings, replica counts) reports a violation, admission returns a
non-empty aggregated message (one line per validator, separated by
`"\n  - "`) containing each reported error verbatim; each validator
contributes only the first rule it finds violated. -/
theorem poolValidation_aggregates (p : TermitePool) (h : poolErrs p ≠ []) :
    ∃ msg, validateTermitePool p = some msg ∧ msg ≠ "" ∧
      ∀ e ∈ poolErrs p, e.data <:+: msg.data := by
  refine ⟨_, by rw [validateTermitePool, if_neg h], ?_, ?_⟩
  · intro hc
    have hd := congrArg String.data hc
    rw [String.data_append] at hd
    exact absurd (List.append_eq_nil.mp hd).1 (by decide)
  · intro e he
    obtain ⟨s, t, hst⟩ := mem_infix_goJoin "\n  - " (poolErrs p) e he
    refine ⟨("TermitePool validation failed:\n  - ").data ++ s, t, ?_⟩
    rw [String.data_append, List.append_assoc, List.append_assoc, ← List.append_assoc s, hst]

/-- Witness for `poolValidation_aggregates` at the concrete pool `poolC6`. -/
theorem poolValidation_aggregates_witness :
    ∃ msg, validateTermitePool poolC6 = some msg ∧ msg ≠ "" ∧
      ∀ e ∈ poolErrs poolC6, e.data <:+: msg.data :=
  poolValidation_aggregates poolC6 (by decide)

/-! ## Theorems: threshold parsing (C8, C10) and time windows (C9) -/

/-- C8: `ParseThresholdCondition(">50")` yields a condition whose `Evaluate` is
true on 51 and false on 50; `ParseThresholdCondition(">=50")` yields a condition
whose `Evaluate` is true on 50; and a value with an `ms` suffix is converted to
seconds, so `"100ms"` parses to the value 0.1. -/
theorem thresholdCondition_roundtrip :
    parseThresholdCondition ">50" = .ok ⟨">", 50⟩ ∧
    (ThresholdCondition.mk ">" 50).evaluate 51 = true ∧
    (ThresholdCondition.mk ">" 50).evaluate 50 = false ∧
    parseThresholdCondition ">=50" = .ok ⟨">=", 50⟩ ∧
    (ThresholdCondition.mk ">=" 50).evaluate 50 = true ∧
    parseThresholdCondition "100ms" = .ok ⟨"==", 1/10⟩ := by
  refine ⟨?_, ?_, ?_, ?_, ?_, ?_⟩ <;>
    · simp +decide [parseThresholdCondition, parseFloat, parseFloatLoop, goTrimSpace,
        goHasPrefix, goHasSuffix, strDrop, strDropRight, List.isPrefixOf, List.isSuffixOf,
        ThresholdCondition.evaluate]
      try norm_num

/-- C10: `ParseThresholdCondition` returns a nil error for every input string:
its internal float parser never reports failure, so a malformed threshold such
as `">abc"` is silently accepted (yielding the value 0) instead of rejected. -/
theorem parseThreshold_never_errors :
    (∀ s : String, (parseThresholdCondition s).isOk = true) ∧
    parseThresholdCondition ">abc" = .ok ⟨">", 0⟩ := by
  constructor
  · intro s
    simp only [parseThresholdCondition, parseFloat]
    repeat' split
    all_goals rfl
  · simp +decide [parseThresholdCondition, parseFloat, parseFloatLoop, goTrimSpace,
      goHasPrefix, goHasSuffix, strDrop, strDropRight, List.isPrefixOf, List.isSuffixOf]

/-- C9: the 22:00–06:00 window (no day restriction) is active at 23:00 UTC and
at 05:00 UTC, inactive at 07:00 UTC; and in general, whenever the end of a
window precedes its start, `IsActive` wraps around midnight: it holds iff the
current minute-of-day is at or after the start or before the end. -/
theorem timeWindow_overnight :
    (TimeWindow.mk 22 0 6 0 []).isActive ⟨0, 23, 0⟩ = true ∧
    (TimeWindow.mk 22 0 6 0 []).isActive ⟨0, 5, 0⟩ = true ∧
    (TimeWindow.mk 22 0 6 0 []).isActive ⟨0, 7, 0⟩ = false ∧
    ∀ (tw : TimeWindow) (t : GoTime), tw.days = [] →
      tw.endHour * 60 + tw.endMinute < tw.startHour * 60 + tw.startMinute →
      tw.isActive t =
        (decide (tw.startHour * 60 + tw.startMinute ≤ (t.hour * 60 + t.minute : Int)) ||
         decide ((t.hour * 60 + t.minute : Int) < tw.endHour * 60 + tw.endMinute)) := by
  refine ⟨by decide, by decide, by decide, ?_⟩
  intro tw t hd hlt
  simp only [TimeWindow.isActive, hd, ne_eq, not_true_eq_false, false_and, if_false]
  rw [if_neg (by omega)]

/-- Witness for the wrap-around clause of `timeWindow_overnight`. -/
theorem timeWindow_overnight_witness :
    (TimeWindow.mk 22 0 6 0 []).isActive ⟨0, 23, 0⟩ =
      (decide ((22 * 60 + 0 : Int) ≤ 23 * 60 + 0) ||
       decide ((23 * 60 + 0 : Int) < 6 * 60 + 0)) :=
  timeWindow_overnight.2.2.2 ⟨22, 0, 6, 0, []⟩ ⟨0, 23, 0⟩ rfl (by decide)

end Termite
